import Mathlib

/-
Verification development for the trend-projection core of covid.py
(function get_exponential, lines 45-72), a shallow embedding.

Modelling decisions:
- The pandas index consists of ISO date strings (YYYY-MM-DD); lexicographic
  order on such strings coincides with chronological order, and appending
  one calendar day is the successor.  Dates are therefore embedded as
  natural numbers (day numbers), with pd.date_range producing consecutive
  successors.
- Numeric cells are rational numbers; NaN (missing) is modelled as none.
- scipy.optimize.curve_fit is floating-point iterative optimization and is
  abstracted as an oracle (FitOracle): its hard precondition that the
  number of data points be at least the number of parameters (2) is kept
  concrete, since scipy raises before iterating when it fails; the fitted
  parameters and the evaluated curve a * exp(b * t) are oracle fields.
- Python exceptions are embedded as an error type: pandas KeyError on a
  missing column becomes unknownColumn, the scipy too-few-points TypeError
  becomes invalidWindow, the scipy no-convergence RuntimeError becomes
  fitDivergence, and an out-of-range index access becomes indexError.
-/

abbrev Cell := Option ℚ

/-- A date-indexed table: model of a pandas DataFrame with a date index and
named numeric columns whose cells may be missing. -/
structure Frame where
  index : List Nat
  cols : List (String × List Cell)
deriving DecidableEq

namespace Frame

def numRows (f : Frame) : Nat := f.index.length

/-- Column lookup by name (first match, as in pandas with unique columns). -/
def getCol (f : Frame) (name : String) : Option (List Cell) :=
  (f.cols.find? (fun c => decide (c.1 = name))).map Prod.snd

def colNames (f : Frame) : List String := f.cols.map Prod.fst

/-- The cell of column `name` in the row labelled `d`: none when the column
or the row is absent, some c when present (c itself none models NaN). -/
def cellAt (f : Frame) (name : String) (d : Nat) : Option Cell :=
  (f.getCol name).bind
    (fun col => ((f.index.zip col).find? (fun x => decide (x.1 = d))).map Prod.snd)

/-- Whether column `name` holds a non-missing value in the row labelled `d`. -/
def cellDefined (f : Frame) (name : String) (d : Nat) : Bool :=
  ((f.cellAt name d).getD none).isSome

/-- Replace the column `name` in place when present, else append it:
the semantics of assigning a whole column in pandas. -/
def setCol (f : Frame) (name : String) (col : List Cell) : Frame :=
  if f.cols.any (fun c => decide (c.1 = name)) then
    { f with cols := f.cols.map (fun c => if c.1 = name then (name, col) else c) }
  else
    { f with cols := f.cols ++ [(name, col)] }

/-- Boolean-mask row selection, dataset[mask] in pandas (line 61). -/
def filterRows (f : Frame) (p : Nat → Bool) : Frame :=
  { index := f.index.filter p,
    cols := f.cols.map
      (fun c => (c.1, ((f.index.zip c.2).filter (fun x => p x.1)).map Prod.snd)) }

/-- dataset.append(extension) where the extension frame has the same columns
and only NaN values (lines 68-69): the index grows by the new dates and every
column is padded with missing cells. -/
def appendBlankRows (f : Frame) (ext : List Nat) : Frame :=
  { index := f.index ++ ext,
    cols := f.cols.map (fun c => (c.1, c.2 ++ List.replicate ext.length none)) }

/-- dataset.assign(new_col_name=np.nan) of line 66: the pandas assign keyword
is the literal string "new_col_name", not the value of the variable. -/
def assignLiteralNaN (f : Frame) : Frame :=
  f.setCol "new_col_name" (List.replicate f.numRows none)

/-- Well-formed input table: every column as long as the index, unique column
names, strictly increasing dates (the documented input contract). -/
def WF (f : Frame) : Prop :=
  (∀ c ∈ f.cols, c.2.length = f.index.length) ∧
    (f.cols.map Prod.fst).Nodup ∧ f.index.Pairwise (· < ·)

/-- Daily cadence: the index is a block of consecutive calendar days. -/
def Daily (f : Frame) : Prop :=
  ∃ d0 n, f.index = (List.range n).map (fun i => d0 + i)

end Frame

/-- Write `vals` positionally into the rows selected by `p`, keeping the old
cell elsewhere: dataset.loc[mask, col] = array (line 71). -/
def maskWrite (p : Nat → Bool) : List Nat → List Cell → List ℚ → List Cell
  | [], _, _ => []
  | d :: ds, olds, vals =>
    if p d then vals.head? :: maskWrite p ds olds.tail vals.tail
    else (olds.head?.getD none) :: maskWrite p ds olds.tail vals

/-- dataset.loc[mask, name] = vals: creates the column (all missing) when it
does not exist yet, then writes `vals` at the masked rows in index order. -/
def Frame.locSet (f : Frame) (p : Nat → Bool) (name : String) (vals : List ℚ) : Frame :=
  f.setCol name
    (maskWrite p f.index ((f.getCol name).getD (List.replicate f.numRows none)) vals)

inductive ProjError
  | unknownColumn
  | invalidWindow
  | fitDivergence
  | indexError
deriving DecidableEq

/-- Abstraction of the floating-point parts of scipy: `run` is the optimizer
(none models the RuntimeError of non-convergence) and `curve` is the kernel
evaluation of a * exp(b * t). -/
structure FitOracle where
  run : List Cell → Option (ℚ × ℚ)
  curve : ℚ → ℚ → Nat → ℚ

/-- scipy.optimize.curve_fit on the two-parameter model (lines 64-65): with
fewer data points than parameters scipy raises before iterating. -/
def curve_fit (O : FitOracle) (ys : List Cell) : Except ProjError (ℚ × ℚ) :=
  if ys.length < 2 then Except.error ProjError.invalidWindow
  else
    match O.run ys with
    | some ab => Except.ok ab
    | none => Except.error ProjError.fitDivergence

/-- dataset.index[-28] of line 59: the 28th entry from the end of the index;
Python raises IndexError when the index is shorter than 28. -/
def defaultStart (f : Frame) : Except ProjError Nat :=
  if h : 28 ≤ f.index.length then
    Except.ok (f.index.get ⟨f.index.length - 28, by omega⟩)
  else Except.error ProjError.indexError

/-- Line 59: start = start if start else dataset.index[-28]. -/
def resolveStart (f : Frame) (start : Option Nat) : Except ProjError Nat :=
  match start with
  | some s => Except.ok s
  | none => defaultStart f

/-- dataset.index[-1] of line 60. -/
def defaultStop (f : Frame) : Except ProjError Nat :=
  match f.index.getLast? with
  | some l => Except.ok l
  | none => Except.error ProjError.indexError

/-- Line 60: stop = stop if stop else dataset.index[-1]. -/
def resolveStop (f : Frame) (stop : Option Nat) : Except ProjError Nat :=
  match stop with
  | some s => Except.ok s
  | none => defaultStop f

/-- pd.date_range(last, periods=horizon+1)[1:] of line 67: the `horizon`
calendar days immediately after `last`. -/
def indexExtension (last : Nat) (horizon : Nat) : List Nat :=
  ((List.range (horizon + 1)).map (fun i => last + i)).drop 1

/-- The success path after the fit (lines 67-71), applied to the frame that
already carries the literal "new_col_name" column of line 66: extend the
index, then write a * exp(b * x_e) over the rows with date >= start, where
x_e = range(len(rows with date >= start)) on the extended frame. -/
def projectCore (O : FitOracle) (g : Frame) (new_col_name : String) (s : Nat)
    (a b : ℚ) (last : Nat) (horizon : Nat) : Frame :=
  let ds2 := g.appendBlankRows (indexExtension last horizon)
  let n := (ds2.index.filter (fun d => decide (s ≤ d))).length
  ds2.locSet (fun d => decide (s ≤ d)) new_col_name
    ((List.range n).map (fun i => O.curve a b i))

/-- get_exponential of covid.py lines 45-72. -/
def get_exponential (O : FitOracle) (dataset : Frame) (col_name new_col_name : String)
    (start stop : Option Nat) (horizon : Nat) : Except ProjError Frame :=
  match resolveStart dataset start with
  | Except.error e => Except.error e
  | Except.ok s =>
    match resolveStop dataset stop with
    | Except.error e => Except.error e
    | Except.ok t =>
      match (dataset.filterRows (fun d => decide (d ≤ t) && decide (s ≤ d))).getCol col_name with
      | none => Except.error ProjError.unknownColumn
      | some ys =>
        match curve_fit O ys with
        | Except.error e => Except.error e
        | Except.ok (a, b) =>
          let ds1 := dataset.assignLiteralNaN
          match ds1.index.getLast? with
          | some last =>
            Except.ok (projectCore O ds1 new_col_name s a b last horizon)
          | none => Except.error ProjError.indexError

deriving instance DecidableEq for Except

/- Concrete fixtures used by witnesses and counterexamples. -/

def Otest : FitOracle where
  run := fun _ => some (2, 3)
  curve := fun _ _ t => (t : ℚ)

def Ftest : Frame where
  index := [0, 1, 2, 3]
  cols := [("c", [some 1, some 2, some 4, some 8])]

def outTest : Frame where
  index := [0, 1, 2, 3, 4, 5]
  cols :=
    [("c", [some 1, some 2, some 4, some 8, none, none]),
     ("new_col_name", [none, none, none, none, none, none]),
     ("p", [none, some 0, some 1, some 2, some 3, some 4])]

example : get_exponential Otest Ftest "c" "p" (some 1) (some 3) 2 = Except.ok outTest := by
  decide

example : get_exponential Otest Ftest "zz" "p" (some 1) (some 3) 2
    = Except.error ProjError.unknownColumn := by decide

example : get_exponential Otest Ftest "c" "p" (some 2) (some 2) 2
    = Except.error ProjError.invalidWindow := by decide

/- Helper lemmas on association lists of columns. -/

theorem find_map_replace {α : Type} (cs : List (String × α)) (name : String) (col : α)
    (h : cs.any (fun c => decide (c.1 = name)) = true) :
    ((cs.map (fun c => if c.1 = name then (name, col) else c)).find?
      (fun c => decide (c.1 = name))).map Prod.snd = some col := by
  induction cs with
  | nil => simp at h
  | cons c cs ih =>
    by_cases hc : c.1 = name
    · rw [List.map_cons, if_pos hc, List.find?_cons_of_pos _ (by simp)]
      rfl
    · rw [List.map_cons, if_neg hc, List.find?_cons_of_neg _ (by simp [hc])]
      exact ih (by simpa [hc] using h)

theorem find_map_replace_ne {α : Type} (cs : List (String × α)) (name : String) (col : α)
    (nm : String) (hne : nm ≠ name) :
    (cs.map (fun c => if c.1 = name then (name, col) else c)).find?
      (fun c => decide (c.1 = nm)) = cs.find? (fun c => decide (c.1 = nm)) := by
  induction cs with
  | nil => rfl
  | cons c cs ih =>
    by_cases hc : c.1 = name
    · rw [List.map_cons, if_pos hc,
        List.find?_cons_of_neg _ (by simp; exact fun h => hne h.symm),
        List.find?_cons_of_neg _ (by simp [hc]; exact fun h => hne h.symm)]
      exact ih
    · by_cases hp : c.1 = nm
      · rw [List.map_cons, if_neg hc, List.find?_cons_of_pos _ (by simp [hp]),
          List.find?_cons_of_pos _ (by simp [hp])]
      · rw [List.map_cons, if_neg hc, List.find?_cons_of_neg _ (by simp [hp]),
          List.find?_cons_of_neg _ (by simp [hp])]
        exact ih

theorem find_map_snd {α β : Type} (cs : List (String × α)) (g : α → β) (nm : String) :
    (cs.map (fun c => (c.1, g c.2))).find? (fun c => decide (c.1 = nm))
      = (cs.find? (fun c => decide (c.1 = nm))).map (fun c => (c.1, g c.2)) := by
  induction cs with
  | nil => rfl
  | cons c cs ih =>
    by_cases hp : c.1 = nm
    · rw [List.map_cons, List.find?_cons_of_pos _ (by simp [hp]),
        List.find?_cons_of_pos _ (by simp [hp])]
      rfl
    · rw [List.map_cons, List.find?_cons_of_neg _ (by simp [hp]),
        List.find?_cons_of_neg _ (by simp [hp])]
      exact ih

theorem Frame.setCol_index (f : Frame) (name : String) (col : List Cell) :
    (f.setCol name col).index = f.index := by
  unfold Frame.setCol
  split <;> rfl

theorem Frame.getCol_setCol_self (f : Frame) (name : String) (col : List Cell) :
    (f.setCol name col).getCol name = some col := by
  unfold Frame.setCol Frame.getCol
  by_cases h : f.cols.any (fun c => decide (c.1 = name)) = true
  · rw [if_pos h]
    exact find_map_replace f.cols name col h
  · rw [if_neg h]
    have hnone : f.cols.find? (fun c => decide (c.1 = name)) = none := by
      rw [List.find?_eq_none]
      intro x hx hpx
      exact h (List.any_eq_true.mpr ⟨x, hx, hpx⟩)
    simp [List.find?_append, hnone]

theorem Frame.getCol_setCol_ne (f : Frame) (name : String) (col : List Cell)
    (nm : String) (hne : nm ≠ name) :
    (f.setCol name col).getCol nm = f.getCol nm := by
  unfold Frame.setCol Frame.getCol
  by_cases h : f.cols.any (fun c => decide (c.1 = name)) = true
  · rw [if_pos h, find_map_replace_ne f.cols name col nm hne]
  · rw [if_neg h, List.find?_append]
    have hsing : ([(name, col)].find? (fun c => decide (c.1 = nm))) = none := by
      rw [List.find?_cons_of_neg _ (by simp; exact fun h => hne h.symm)]
      rfl
    rw [hsing]
    cases f.cols.find? (fun c => decide (c.1 = nm)) <;> rfl

theorem Frame.getCol_filterRows (f : Frame) (p : Nat → Bool) (nm : String) :
    (f.filterRows p).getCol nm
      = (f.getCol nm).map
          (fun c => ((f.index.zip c).filter (fun x => p x.1)).map Prod.snd) := by
  unfold Frame.filterRows Frame.getCol
  rw [find_map_snd f.cols
    (fun c => ((f.index.zip c).filter (fun x => p x.1)).map Prod.snd) nm]
  cases f.cols.find? (fun c => decide (c.1 = nm)) <;> rfl

theorem Frame.getCol_appendBlankRows (f : Frame) (ext : List Nat) (nm : String) :
    (f.appendBlankRows ext).getCol nm
      = (f.getCol nm).map (fun c => c ++ List.replicate ext.length none) := by
  unfold Frame.appendBlankRows Frame.getCol
  rw [find_map_snd f.cols (fun c => c ++ List.replicate ext.length none) nm]
  cases f.cols.find? (fun c => decide (c.1 = nm)) <;> rfl

theorem length_zip_filter (ds : List Nat) (c : List Cell) (p : Nat → Bool)
    (h : c.length = ds.length) :
    (((ds.zip c).filter (fun x => p x.1)).map Prod.snd).length = (ds.filter p).length := by
  induction ds generalizing c with
  | nil =>
    cases c with
    | nil => rfl
    | cons v c => simp at h
  | cons d ds ih =>
    cases c with
    | nil => simp at h
    | cons v c =>
      have h' : c.length = ds.length := by simpa using h
      by_cases hp : p d
      · simp only [List.zip_cons_cons, List.filter_cons, hp]
        simpa using ih c h'
      · simp only [List.zip_cons_cons, List.filter_cons, hp]
        simpa using ih c h'

theorem maskWrite_length (p : Nat → Bool) (ds : List Nat) (olds : List Cell)
    (vals : List ℚ) : (maskWrite p ds olds vals).length = ds.length := by
  induction ds generalizing olds vals with
  | nil => rfl
  | cons d ds ih =>
    unfold maskWrite
    by_cases hp : p d <;> simp [hp, ih]

theorem maskWrite_cons_pos (p : Nat → Bool) (d : Nat) (ds : List Nat)
    (olds : List Cell) (vals : List ℚ) (hp : p d = true) :
    maskWrite p (d :: ds) olds vals
      = vals.head? :: maskWrite p ds olds.tail vals.tail := by
  simp only [maskWrite]
  rw [if_pos hp]

theorem maskWrite_cons_neg (p : Nat → Bool) (d : Nat) (ds : List Nat)
    (olds : List Cell) (vals : List ℚ) (hp : p d = false) :
    maskWrite p (d :: ds) olds vals
      = (olds.head?.getD none) :: maskWrite p ds olds.tail vals := by
  simp only [maskWrite]
  rw [if_neg (by simp [hp])]

/-- The masked positional write of line 71: looking up the row of the i-th
date (in index order) that satisfies the mask retrieves the i-th written
value. -/
theorem maskWrite_find_pos (p : Nat → Bool) (ds : List Nat) (olds : List Cell)
    (vals : List ℚ) (hnd : ds.Nodup) {i : Nat} {d : Nat}
    (hd : (ds.filter p)[i]? = some d) :
    ((ds.zip (maskWrite p ds olds vals)).find? (fun x => decide (x.1 = d))).map Prod.snd
      = some vals[i]? := by
  induction ds generalizing olds vals i with
  | nil => simp at hd
  | cons e ds ih =>
    obtain ⟨he, hnd'⟩ := List.nodup_cons.mp hnd
    by_cases hp : p e
    · rw [maskWrite_cons_pos p e ds olds vals (by simp [hp])]
      rw [List.filter_cons_of_pos (by simp [hp])] at hd
      cases i with
      | zero =>
        have hde : e = d := by simpa using hd
        subst hde
        rw [List.zip_cons_cons, List.find?_cons_of_pos _ (by simp)]
        rw [List.head?_eq_getElem? vals]
        rfl
      | succ i =>
        have hd' : (ds.filter p)[i]? = some d := by simpa using hd
        have hdm : d ∈ ds := List.mem_of_mem_filter (List.getElem?_mem hd')
        have hne : e ≠ d := fun h => he (h ▸ hdm)
        rw [List.zip_cons_cons, List.find?_cons_of_neg _ (by simp [hne])]
        rw [ih olds.tail vals.tail hnd' hd']
        rw [List.getElem?_tail]
    · rw [maskWrite_cons_neg p e ds olds vals (by simp [hp])]
      rw [List.filter_cons_of_neg (by simp [hp])] at hd
      have hdm : d ∈ ds.filter p := List.getElem?_mem hd
      have hpd : p d = true := by
        have := List.mem_filter.mp hdm
        exact this.2
      have hne : e ≠ d := fun h => hp (by rw [h]; exact hpd)
      rw [List.zip_cons_cons, List.find?_cons_of_neg _ (by simp [hne])]
      exact ih olds.tail vals hnd' hd

/-- Rows rejected by the mask keep their previous cell; when the previous
column was entirely missing, the cell stays missing. -/
theorem maskWrite_find_neg (p : Nat → Bool) (ds : List Nat) (olds : List Cell)
    (vals : List ℚ) {d : Nat} (hmem : d ∈ ds) (hpd : p d = false)
    (hold : ∀ x ∈ olds, x = (none : Cell)) :
    ((ds.zip (maskWrite p ds olds vals)).find? (fun x => decide (x.1 = d))).map Prod.snd
      = some none := by
  induction ds generalizing olds vals with
  | nil => simp at hmem
  | cons e ds ih =>
    have htail : ∀ x ∈ olds.tail, x = (none : Cell) :=
      fun x hx => hold x (List.mem_of_mem_tail hx)
    by_cases hp : p e
    · have hne : e ≠ d := fun h => by rw [h, hpd] at hp; exact Bool.noConfusion hp
      have hmem' : d ∈ ds := by
        rcases List.mem_cons.mp hmem with h | h
        · exact absurd h.symm hne
        · exact h
      rw [maskWrite_cons_pos p e ds olds vals (by simp [hp])]
      rw [List.zip_cons_cons, List.find?_cons_of_neg _ (by simp [hne])]
      exact ih olds.tail vals.tail hmem' htail
    · have hcell : (olds.head?.getD none) = (none : Cell) := by
        cases olds with
        | nil => rfl
        | cons o os => simpa using hold o (List.mem_cons_self o os)
      rw [maskWrite_cons_neg p e ds olds vals (by simp [hp])]
      by_cases hed : e = d
      · rw [List.zip_cons_cons, List.find?_cons_of_pos _ (by simp [hed])]
        simp [hcell]
      · have hmem' : d ∈ ds := by
          rcases List.mem_cons.mp hmem with h | h
          · exact absurd h.symm hed
          · exact h
        rw [List.zip_cons_cons, List.find?_cons_of_neg _ (by simp [hed])]
        exact ih olds.tail vals hmem' htail

/-- Looking up a date of the original block in a row-appended table stays in
the original block. -/
theorem find_zip_append_left (ds₁ ds₂ : List Nat) (c₁ c₂ : List Cell) (d : Nat)
    (hlen : c₁.length = ds₁.length) (hmem : d ∈ ds₁) :
    ((ds₁ ++ ds₂).zip (c₁ ++ c₂)).find? (fun x => decide (x.1 = d))
      = (ds₁.zip c₁).find? (fun x => decide (x.1 = d)) := by
  induction ds₁ generalizing c₁ with
  | nil => simp at hmem
  | cons e ds ih =>
    cases c₁ with
    | nil => simp at hlen
    | cons v c =>
      have hlen' : c.length = ds.length := by simpa using hlen
      by_cases hed : e = d
      · simp only [List.cons_append, List.zip_cons_cons]
        rw [List.find?_cons_of_pos _ (by simp [hed]),
          List.find?_cons_of_pos _ (by simp [hed])]
      · have hmem' : d ∈ ds := by
          rcases List.mem_cons.mp hmem with h | h
          · exact absurd h.symm hed
          · exact h
        simp only [List.cons_append, List.zip_cons_cons]
        rw [List.find?_cons_of_neg _ (by simp [hed]),
          List.find?_cons_of_neg _ (by simp [hed])]
        exact ih c hlen' hmem'

/-- Looking up a date absent from the original block in a row-appended table
lands in the appended block. -/
theorem find_zip_append_right (ds₁ ds₂ : List Nat) (c₁ c₂ : List Cell) (d : Nat)
    (hlen : c₁.length = ds₁.length) (hnot : d ∉ ds₁) :
    ((ds₁ ++ ds₂).zip (c₁ ++ c₂)).find? (fun x => decide (x.1 = d))
      = (ds₂.zip c₂).find? (fun x => decide (x.1 = d)) := by
  induction ds₁ generalizing c₁ with
  | nil =>
    cases c₁ with
    | nil => rfl
    | cons v c => simp at hlen
  | cons e ds ih =>
    cases c₁ with
    | nil => simp at hlen
    | cons v c =>
      have hlen' : c.length = ds.length := by simpa using hlen
      have hed : e ≠ d := fun h => hnot (h ▸ List.mem_cons_self e ds)
      simp only [List.cons_append, List.zip_cons_cons]
      rw [List.find?_cons_of_neg _ (by simp [hed])]
      exact ih c hlen' (fun h => hnot (List.mem_cons_of_mem e h))

/-- Looking up any present date in an all-missing column yields a missing
cell. -/
theorem find_zip_allnone (ds : List Nat) (c : List Cell) (d : Nat)
    (hall : ∀ x ∈ c, x = (none : Cell)) (hlen : c.length = ds.length) (hd : d ∈ ds) :
    ((ds.zip c).find? (fun x => decide (x.1 = d))).map Prod.snd = some none := by
  induction ds generalizing c with
  | nil => simp at hd
  | cons e ds ih =>
    cases c with
    | nil => simp at hlen
    | cons v cs =>
      have hv : v = (none : Cell) := hall v (List.mem_cons_self v cs)
      have hall' : ∀ x ∈ cs, x = (none : Cell) :=
        fun x hx => hall x (List.mem_cons_of_mem v hx)
      have hlen' : cs.length = ds.length := by simpa using hlen
      by_cases hed : e = d
      · rw [List.zip_cons_cons, List.find?_cons_of_pos _ (by simp [hed])]
        simp [hv]
      · have hd' : d ∈ ds := by
          rcases List.mem_cons.mp hd with h | h
          · exact absurd h.symm hed
          · exact h
        rw [List.zip_cons_cons, List.find?_cons_of_neg _ (by simp [hed])]
        exact ih cs hall' hlen' hd'

/- Lemmas about the appended date range and sortedness. -/

theorem indexExtension_eq (last : Nat) (h : Nat) :
    indexExtension last h = (List.range h).map (fun i => last + (i + 1)) := by
  unfold indexExtension
  rw [List.range_succ_eq_map, List.map_cons, List.map_map, List.drop_succ_cons,
    List.drop_zero]
  rfl

theorem length_indexExtension (last : Nat) (h : Nat) :
    (indexExtension last h).length = h := by
  rw [indexExtension_eq, List.length_map, List.length_range]

theorem lt_of_mem_indexExtension (last : Nat) (h : Nat) (d : Nat)
    (hd : d ∈ indexExtension last h) : last < d := by
  rw [indexExtension_eq] at hd
  obtain ⟨i, _, rfl⟩ := List.mem_map.mp hd
  omega

theorem le_getLast_of_sorted (l : List Nat) (hl : l.Pairwise (· < ·)) (last : Nat)
    (h : l.getLast? = some last) : ∀ a ∈ l, a ≤ last := by
  induction l with
  | nil => simp at h
  | cons x xs ih =>
    cases xs with
    | nil =>
      intro a ha
      have hx : x = last := by simpa using h
      have ha' : a = x := by simpa using ha
      omega
    | cons y ys =>
      rw [List.getLast?_cons_cons] at h
      obtain ⟨hx, htail⟩ := List.pairwise_cons.mp hl
      have hall := ih htail h
      intro a ha
      rcases List.mem_cons.mp ha with rfl | ha'
      · have hy : y ≤ last := hall y (List.mem_cons_self y ys)
        have hxy : a < y := hx y (List.mem_cons_self y ys)
        omega
      · exact hall a ha'

theorem sorted_extended (idx : List Nat) (hs : idx.Pairwise (· < ·)) (last : Nat)
    (hl : idx.getLast? = some last) (h : Nat) :
    (idx ++ indexExtension last h).Pairwise (· < ·) := by
  rw [List.pairwise_append]
  refine ⟨hs, ?_, ?_⟩
  · rw [indexExtension_eq, List.pairwise_map]
    exact (List.pairwise_lt_range h).imp (fun hab => by omega)
  · intro a ha b hb
    have hb' := lt_of_mem_indexExtension last h b hb
    have ha' := le_getLast_of_sorted idx hs last hl a ha
    omega

theorem nodup_of_sorted (l : List Nat) (h : l.Pairwise (· < ·)) : l.Nodup :=
  h.imp Nat.ne_of_lt

theorem not_mem_of_sorted_ext (idx : List Nat) (hs : idx.Pairwise (· < ·))
    (last : Nat) (hl : idx.getLast? = some last) (h : Nat) (d : Nat)
    (hd : d ∈ indexExtension last h) : d ∉ idx := by
  intro hmem
  have h1 := le_getLast_of_sorted idx hs last hl d hmem
  have h2 := lt_of_mem_indexExtension last h d hd
  omega

/- Structural lemmas about the embedded get_exponential. -/

theorem Frame.locSet_index (f : Frame) (p : Nat → Bool) (name : String)
    (vals : List ℚ) : (f.locSet p name vals).index = f.index :=
  Frame.setCol_index f name _

theorem Frame.assignLiteralNaN_index (f : Frame) :
    f.assignLiteralNaN.index = f.index :=
  Frame.setCol_index f "new_col_name" _

theorem projectCore_index (O : FitOracle) (g : Frame) (new_col_name : String)
    (s : Nat) (a b : ℚ) (last : Nat) (horizon : Nat) :
    (projectCore O g new_col_name s a b last horizon).index
      = g.index ++ indexExtension last horizon := by
  unfold projectCore
  rw [Frame.locSet_index]
  rfl

/-- Success-path characterisation of get_exponential: when the window
resolution, the column lookup, the fit, and the last-date access all succeed,
the call returns the built projection frame. -/
theorem get_exponential_ok (O : FitOracle) (f : Frame) (col new : String)
    (start stop : Option Nat) (horizon : Nat) (s t : Nat) (ys : List Cell)
    (a b : ℚ) (last : Nat)
    (hs : resolveStart f start = Except.ok s)
    (ht : resolveStop f stop = Except.ok t)
    (hys : (f.filterRows (fun d => decide (d ≤ t) && decide (s ≤ d))).getCol col
      = some ys)
    (hfit : curve_fit O ys = Except.ok (a, b))
    (hlast : f.index.getLast? = some last) :
    get_exponential O f col new start stop horizon
      = Except.ok (projectCore O f.assignLiteralNaN new s a b last horizon) := by
  simp only [get_exponential, hs, ht, hys, hfit, Frame.assignLiteralNaN_index, hlast]

theorem Frame.cellAt_of_getCol (f : Frame) (name : String) (d : Nat) (col : List Cell)
    (h : f.getCol name = some col) :
    f.cellAt name d
      = ((f.index.zip col).find? (fun x => decide (x.1 = d))).map Prod.snd := by
  unfold Frame.cellAt
  rw [h]
  rfl

/-- Value of the projection column at the i-th masked date of the extended
index: the i-th curve sample. -/
theorem projectCore_cellAt_pos (O : FitOracle) (g : Frame) (new : String) (s : Nat)
    (a b : ℚ) (last horizon : Nat)
    (hnd : (g.index ++ indexExtension last horizon).Nodup) (i d : Nat)
    (hd : ((g.index ++ indexExtension last horizon).filter (fun x => decide (s ≤ x)))[i]?
      = some d) :
    (projectCore O g new s a b last horizon).cellAt new d
      = some (some (O.curve a b i)) := by
  have hcol :
      (projectCore O g new s a b last horizon).getCol new
        = some (maskWrite (fun x => decide (s ≤ x)) (g.index ++ indexExtension last horizon)
            (((g.appendBlankRows (indexExtension last horizon)).getCol new).getD
              (List.replicate (g.appendBlankRows (indexExtension last horizon)).numRows none))
            ((List.range ((g.index ++ indexExtension last horizon).filter
                (fun x => decide (s ≤ x))).length).map (fun j => O.curve a b j))) :=
    Frame.getCol_setCol_self _ _ _
  rw [Frame.cellAt_of_getCol _ _ d _ hcol, projectCore_index]
  rw [maskWrite_find_pos _ _ _ _ hnd hd]
  have hlt : i < ((g.index ++ indexExtension last horizon).filter
      (fun x => decide (s ≤ x))).length := by
    rcases List.getElem?_eq_some.mp hd with ⟨hl, _⟩
    exact hl
  rw [List.getElem?_map, List.getElem?_range hlt]
  rfl

/-- Rows of the extended index before the start date keep a missing cell in
the projection column, provided that column carried no values before. -/
theorem projectCore_cellAt_neg (O : FitOracle) (g : Frame) (new : String) (s : Nat)
    (a b : ℚ) (last horizon : Nat) (d : Nat)
    (hmem : d ∈ g.index ++ indexExtension last horizon) (hlt : d < s)
    (hold : ∀ x ∈ ((g.appendBlankRows (indexExtension last horizon)).getCol new).getD
        (List.replicate (g.appendBlankRows (indexExtension last horizon)).numRows none),
      x = (none : Cell)) :
    (projectCore O g new s a b last horizon).cellAt new d = some none := by
  have hcol :
      (projectCore O g new s a b last horizon).getCol new
        = some (maskWrite (fun x => decide (s ≤ x)) (g.index ++ indexExtension last horizon)
            (((g.appendBlankRows (indexExtension last horizon)).getCol new).getD
              (List.replicate (g.appendBlankRows (indexExtension last horizon)).numRows none))
            ((List.range ((g.index ++ indexExtension last horizon).filter
                (fun x => decide (s ≤ x))).length).map (fun j => O.curve a b j))) :=
    Frame.getCol_setCol_self _ _ _
  rw [Frame.cellAt_of_getCol _ _ d _ hcol, projectCore_index]
  refine maskWrite_find_neg _ _ _ _ hmem ?_ hold
  simp only [decide_eq_false_iff_not]
  omega

/-- Columns other than the written one pass through the projection step with
only the blank extension appended. -/
theorem projectCore_getCol_ne (O : FitOracle) (g : Frame) (new : String) (s : Nat)
    (a b : ℚ) (last horizon : Nat) (nm : String) (hne : nm ≠ new) :
    (projectCore O g new s a b last horizon).getCol nm
      = (g.getCol nm).map
          (fun c => c ++ List.replicate (indexExtension last horizon).length none) := by
  have h1 : (projectCore O g new s a b last horizon).getCol nm
      = (g.appendBlankRows (indexExtension last horizon)).getCol nm :=
    Frame.getCol_setCol_ne _ _ _ _ hne
  rw [h1, Frame.getCol_appendBlankRows]

/-- When the caller-supplied column name is fresh, the previous content of
that column in the extended working frame is entirely missing. -/
theorem oldcol_allnone (f : Frame) (new : String) (hfresh : f.getCol new = none)
    (ext : List Nat) :
    ∀ x ∈ ((f.assignLiteralNaN.appendBlankRows ext).getCol new).getD
        (List.replicate (f.assignLiteralNaN.appendBlankRows ext).numRows none),
      x = (none : Cell) := by
  by_cases hn : new = "new_col_name"
  · subst hn
    rw [Frame.getCol_appendBlankRows,
      show f.assignLiteralNaN.getCol "new_col_name"
          = some (List.replicate f.numRows none) from Frame.getCol_setCol_self f _ _]
    simp only [Option.map_some', Option.getD_some]
    intro x hx
    rcases List.mem_append.mp hx with h | h <;> exact List.eq_of_mem_replicate h
  · rw [Frame.getCol_appendBlankRows,
      show f.assignLiteralNaN.getCol new = f.getCol new from
        Frame.getCol_setCol_ne f _ _ new hn, hfresh]
    simp only [Option.map_none', Option.getD_none]
    intro x hx
    exact List.eq_of_mem_replicate hx

theorem Frame.getCol_mem (f : Frame) (col : String) (c : List Cell)
    (h : f.getCol col = some c) : (col, c) ∈ f.cols := by
  unfold Frame.getCol at h
  cases hf : f.cols.find? (fun x => decide (x.1 = col)) with
  | none => rw [hf] at h; simp at h
  | some pr =>
    rw [hf] at h
    have hmem := List.mem_of_find?_eq_some hf
    have hpred := List.find?_some hf
    have h2 : pr.2 = c := by simpa using h
    have h1 : pr.1 = col := by simpa using hpred
    have hpr : (col, c) = pr := by
      cases pr
      simp only [Prod.mk.injEq]
      exact ⟨h1.symm, h2.symm⟩
    rw [hpr]
    exact hmem

/-- The default fit-window start of line 59 on a daily index: the entry 28
positions from the end, which is 27 calendar days before the last date. -/
theorem defaultStart_of_daily (f : Frame) (d0 n : Nat)
    (hidx : f.index = (List.range n).map (fun i => d0 + i)) (hn : 28 ≤ n) :
    defaultStart f = Except.ok (d0 + (n - 28)) := by
  have hlen : f.index.length = n := by rw [hidx]; simp
  unfold defaultStart
  rw [dif_pos (by omega : 28 ≤ f.index.length)]
  have h1 : f.index[f.index.length - 28]? = some (d0 + (n - 28)) := by
    rw [hidx, List.length_map, List.length_range, List.getElem?_map,
      List.getElem?_range (by omega : n - 28 < n)]
    rfl
  have h4 : f.index[f.index.length - 28] = d0 + (n - 28) := by
    have h3 : f.index[f.index.length - 28]?
        = some (f.index[f.index.length - 28]) :=
      List.getElem?_eq_getElem (by omega)
    rw [h1] at h3
    exact (Option.some.inj h3).symm
  rw [List.get_eq_getElem]
  exact congrArg Except.ok h4

theorem default_window (f : Frame) (hD : f.Daily) (hn : 28 ≤ f.numRows)
    (last : Nat) (hlast : f.index.getLast? = some last) :
    resolveStart f none = Except.ok (last - 27)
      ∧ resolveStop f none = Except.ok last := by
  obtain ⟨d0, n, hidx⟩ := hD
  have hlen : f.index.length = n := by rw [hidx]; simp
  have hrows : f.numRows = f.index.length := rfl
  have hn2 : 28 ≤ n := by omega
  have hglast : last = d0 + (n - 1) := by
    have hg : f.index.getLast? = some (d0 + (n - 1)) := by
      rw [hidx, List.getLast?_eq_getElem?, List.length_map, List.length_range,
        List.getElem?_map, List.getElem?_range (by omega : n - 1 < n)]
      rfl
    rw [hg] at hlast
    exact (Option.some.inj hlast).symm
  constructor
  · have h1 : resolveStart f none = defaultStart f := rfl
    rw [h1, defaultStart_of_daily f d0 n hidx hn2]
    have : d0 + (n - 28) = last - 27 := by omega
    rw [this]
  · have h1 : resolveStop f none = defaultStop f := rfl
    rw [h1]
    unfold defaultStop
    rw [hlast]

def outTest0 : Frame where
  index := [0, 1, 2, 3]
  cols :=
    [("c", [some 1, some 2, some 4, some 8]),
     ("new_col_name", [none, none, none, none]),
     ("p", [none, some 0, some 1, some 2])]

def F29 : Frame where
  index := (List.range 29).map (fun i => 100 + i)
  cols := [("c", List.replicate 29 (some 1))]

instance (f : Frame) : Decidable f.WF := by
  unfold Frame.WF
  infer_instance

/-- Claim C1: for every valid call, the output's new column satisfies
new_column[d] = curve(a, b, t(d)) for every date d >= start of the extended
index, where (a, b) are the fitted parameters and t(d) is the 0-based offset
of d within the extended index restricted to dates >= start. -/
theorem projection_follows_curve_at_offsets
    (O : FitOracle) (f : Frame) (col new : String) (start stop : Option Nat)
    (horizon : Nat) (s t : Nat) (ys : List Cell) (a b : ℚ) (last : Nat)
    (out : Frame)
    (hWF : f.WF)
    (hs : resolveStart f start = Except.ok s)
    (ht : resolveStop f stop = Except.ok t)
    (hys : (f.filterRows (fun d => decide (d ≤ t) && decide (s ≤ d))).getCol col
      = some ys)
    (hfit : curve_fit O ys = Except.ok (a, b))
    (hlast : f.index.getLast? = some last)
    (hout : get_exponential O f col new start stop horizon = Except.ok out) :
    ∀ i d : Nat, (out.index.filter (fun x => decide (s ≤ x)))[i]? = some d →
      out.cellAt new d = some (some (O.curve a b i)) := by
  rw [get_exponential_ok O f col new start stop horizon s t ys a b last
    hs ht hys hfit hlast] at hout
  have heq := Except.ok.inj hout
  subst heq
  intro i d hd
  rw [projectCore_index, Frame.assignLiteralNaN_index] at hd
  have hnd : (f.index ++ indexExtension last horizon).Nodup :=
    nodup_of_sorted _ (sorted_extended f.index hWF.2.2 last hlast horizon)
  have hnd' : (f.assignLiteralNaN.index ++ indexExtension last horizon).Nodup := by
    rw [Frame.assignLiteralNaN_index]
    exact hnd
  have hd' : ((f.assignLiteralNaN.index ++ indexExtension last horizon).filter
      (fun x => decide (s ≤ x)))[i]? = some d := by
    rw [Frame.assignLiteralNaN_index]
    exact hd
  exact projectCore_cellAt_pos O f.assignLiteralNaN new s a b last horizon hnd' i d hd'

theorem projection_follows_curve_at_offsets_witness :
    Frame.cellAt outTest "p" 3 = some (some (Otest.curve 2 3 2)) := by
  have h := projection_follows_curve_at_offsets Otest Ftest "c" "p"
    (some 1) (some 3) 2 1 3 [some 2, some 4, some 8] 2 3 3 outTest
    (by decide) (by decide) (by decide) (by decide) (by decide) (by decide)
    (by decide)
  exact h 2 3 (by decide)

/-- Claim C2: for every valid call the output index is the input index
followed by exactly `horizon` consecutive calendar days strictly after the
last input date, so its length is the input length plus the horizon. -/
theorem output_index_extends_by_horizon
    (O : FitOracle) (f : Frame) (col new : String) (start stop : Option Nat)
    (horizon : Nat) (s t : Nat) (ys : List Cell) (a b : ℚ) (last : Nat)
    (out : Frame)
    (hs : resolveStart f start = Except.ok s)
    (ht : resolveStop f stop = Except.ok t)
    (hys : (f.filterRows (fun d => decide (d ≤ t) && decide (s ≤ d))).getCol col
      = some ys)
    (hfit : curve_fit O ys = Except.ok (a, b))
    (hlast : f.index.getLast? = some last)
    (hout : get_exponential O f col new start stop horizon = Except.ok out) :
    out.index = f.index ++ (List.range horizon).map (fun i => last + (i + 1))
      ∧ out.index.length = f.index.length + horizon := by
  rw [get_exponential_ok O f col new start stop horizon s t ys a b last
    hs ht hys hfit hlast] at hout
  have heq := Except.ok.inj hout
  subst heq
  rw [projectCore_index, Frame.assignLiteralNaN_index, indexExtension_eq]
  constructor
  · rfl
  · simp

theorem output_index_extends_by_horizon_witness :
    outTest.index = Ftest.index ++ (List.range 2).map (fun i => 3 + (i + 1))
      ∧ outTest.index.length = Ftest.index.length + 2 :=
  output_index_extends_by_horizon Otest Ftest "c" "p" (some 1) (some 3) 2 1 3
    [some 2, some 4, some 8] 2 3 3 outTest
    (by decide) (by decide) (by decide) (by decide) (by decide) (by decide)

/-- Claim C3: for every valid call writing a genuinely new column, that
column is non-missing exactly on dates >= start of the output (original and
appended alike), missing strictly before start, and on every appended date
every pre-existing column is missing. -/
theorem new_column_defined_iff_ge_start
    (O : FitOracle) (f : Frame) (col new : String) (start stop : Option Nat)
    (horizon : Nat) (s t : Nat) (ys : List Cell) (a b : ℚ) (last : Nat)
    (out : Frame)
    (hWF : f.WF)
    (hfresh : f.getCol new = none)
    (hs : resolveStart f start = Except.ok s)
    (ht : resolveStop f stop = Except.ok t)
    (hys : (f.filterRows (fun d => decide (d ≤ t) && decide (s ≤ d))).getCol col
      = some ys)
    (hfit : curve_fit O ys = Except.ok (a, b))
    (hlast : f.index.getLast? = some last)
    (hout : get_exponential O f col new start stop horizon = Except.ok out) :
    (∀ d ∈ out.index, s ≤ d → out.cellDefined new d = true)
      ∧ (∀ d ∈ out.index, d < s → out.cellAt new d = some none)
      ∧ (∀ nm c, f.getCol nm = some c → ∀ d ∈ indexExtension last horizon,
          out.cellAt nm d = some none) := by
  rw [get_exponential_ok O f col new start stop horizon s t ys a b last
    hs ht hys hfit hlast] at hout
  have heq := Except.ok.inj hout
  subst heq
  have hnd : (f.index ++ indexExtension last horizon).Nodup :=
    nodup_of_sorted _ (sorted_extended f.index hWF.2.2 last hlast horizon)
  have hnd' : (f.assignLiteralNaN.index ++ indexExtension last horizon).Nodup := by
    rw [Frame.assignLiteralNaN_index]
    exact hnd
  refine ⟨?_, ?_, ?_⟩
  · intro d hd hsd
    rw [projectCore_index, Frame.assignLiteralNaN_index] at hd
    have hmemf : d ∈ (f.index ++ indexExtension last horizon).filter
        (fun x => decide (s ≤ x)) :=
      List.mem_filter.mpr ⟨hd, by simpa using hsd⟩
    obtain ⟨i, hi⟩ := List.getElem?_of_mem hmemf
    have hi' : ((f.assignLiteralNaN.index ++ indexExtension last horizon).filter
        (fun x => decide (s ≤ x)))[i]? = some d := by
      rw [Frame.assignLiteralNaN_index]
      exact hi
    have hcell := projectCore_cellAt_pos O f.assignLiteralNaN new s a b last
      horizon hnd' i d hi'
    unfold Frame.cellDefined
    rw [hcell]
    rfl
  · intro d hd hds
    rw [projectCore_index, Frame.assignLiteralNaN_index] at hd
    have hmem' : d ∈ f.assignLiteralNaN.index ++ indexExtension last horizon := by
      rw [Frame.assignLiteralNaN_index]
      exact hd
    exact projectCore_cellAt_neg O f.assignLiteralNaN new s a b last horizon d
      hmem' hds (oldcol_allnone f new hfresh (indexExtension last horizon))
  · intro nm c hc d hd
    have hnenew : nm ≠ new := by
      intro h
      rw [h, hfresh] at hc
      exact Option.noConfusion hc
    have hnot : d ∉ f.index :=
      not_mem_of_sorted_ext f.index hWF.2.2 last hlast horizon d hd
    by_cases hn : nm = "new_col_name"
    · have hassign : f.assignLiteralNaN.getCol nm
          = some (List.replicate f.numRows none) := by
        rw [hn]
        exact Frame.getCol_setCol_self f _ _
      have hcolout : (projectCore O f.assignLiteralNaN new s a b last
          horizon).getCol nm
          = some (List.replicate f.numRows none
              ++ List.replicate (indexExtension last horizon).length none) := by
        rw [projectCore_getCol_ne O f.assignLiteralNaN new s a b last horizon
          nm hnenew, hassign]
        rfl
      rw [Frame.cellAt_of_getCol _ _ d _ hcolout, projectCore_index,
        Frame.assignLiteralNaN_index]
      rw [find_zip_append_right f.index (indexExtension last horizon) _ _ d
        (by simp [Frame.numRows]) hnot]
      exact find_zip_allnone (indexExtension last horizon) _ d
        (fun x hx => List.eq_of_mem_replicate hx) (by simp) hd
    · have hassign : f.assignLiteralNaN.getCol nm = some c := by
        rw [show f.assignLiteralNaN.getCol nm = f.getCol nm from
          Frame.getCol_setCol_ne f _ _ nm hn, hc]
      have hcolout : (projectCore O f.assignLiteralNaN new s a b last
          horizon).getCol nm
          = some (c ++ List.replicate (indexExtension last horizon).length none) := by
        rw [projectCore_getCol_ne O f.assignLiteralNaN new s a b last horizon
          nm hnenew, hassign]
        rfl
      have hlc : c.length = f.index.length := hWF.1 (nm, c) (Frame.getCol_mem f nm c hc)
      rw [Frame.cellAt_of_getCol _ _ d _ hcolout, projectCore_index,
        Frame.assignLiteralNaN_index]
      rw [find_zip_append_right f.index (indexExtension last horizon) c _ d hlc hnot]
      exact find_zip_allnone (indexExtension last horizon) _ d
        (fun x hx => List.eq_of_mem_replicate hx) (by simp) hd

theorem new_column_defined_iff_ge_start_witness :
    outTest.cellDefined "p" 4 = true ∧ outTest.cellAt "p" 0 = some none
      ∧ outTest.cellAt "c" 5 = some none := by
  have h := new_column_defined_iff_ge_start Otest Ftest "c" "p"
    (some 1) (some 3) 2 1 3 [some 2, some 4, some 8] 2 3 3 outTest
    (by decide) (by decide) (by decide) (by decide) (by decide) (by decide)
    (by decide) (by decide)
  exact ⟨h.1 4 (by decide) (by decide), h.2.1 0 (by decide) (by decide),
    h.2.2 "c" [some 1, some 2, some 4, some 8] (by decide) 5 (by decide)⟩

/-- Claim C8: with horizon zero the output index equals the input index and
the new column is still populated with the curve samples on dates >= start. -/
theorem horizon_zero_populates_without_extension
    (O : FitOracle) (f : Frame) (col new : String) (start stop : Option Nat)
    (s t : Nat) (ys : List Cell) (a b : ℚ) (last : Nat) (out : Frame)
    (hWF : f.WF)
    (hs : resolveStart f start = Except.ok s)
    (ht : resolveStop f stop = Except.ok t)
    (hys : (f.filterRows (fun d => decide (d ≤ t) && decide (s ≤ d))).getCol col
      = some ys)
    (hfit : curve_fit O ys = Except.ok (a, b))
    (hlast : f.index.getLast? = some last)
    (hout : get_exponential O f col new start stop 0 = Except.ok out) :
    out.index = f.index
      ∧ ∀ i d : Nat, (out.index.filter (fun x => decide (s ≤ x)))[i]? = some d →
          out.cellAt new d = some (some (O.curve a b i)) := by
  rw [get_exponential_ok O f col new start stop 0 s t ys a b last
    hs ht hys hfit hlast] at hout
  have heq := Except.ok.inj hout
  subst heq
  have hidx : (projectCore O f.assignLiteralNaN new s a b last 0).index
      = f.index := by
    rw [projectCore_index, Frame.assignLiteralNaN_index, indexExtension_eq]
    simp
  refine ⟨hidx, ?_⟩
  intro i d hd
  rw [hidx] at hd
  have hnd : (f.index ++ indexExtension last 0).Nodup :=
    nodup_of_sorted _ (sorted_extended f.index hWF.2.2 last hlast 0)
  have hnd' : (f.assignLiteralNaN.index ++ indexExtension last 0).Nodup := by
    rw [Frame.assignLiteralNaN_index]
    exact hnd
  have hext0 : indexExtension last 0 = [] := by
    rw [indexExtension_eq]
    rfl
  have hd' : ((f.assignLiteralNaN.index ++ indexExtension last 0).filter
      (fun x => decide (s ≤ x)))[i]? = some d := by
    rw [Frame.assignLiteralNaN_index, hext0, List.append_nil]
    exact hd
  exact projectCore_cellAt_pos O f.assignLiteralNaN new s a b last 0 hnd' i d hd'

theorem horizon_zero_populates_without_extension_witness :
    outTest0.index = Ftest.index
      ∧ outTest0.cellAt "p" 3 = some (some (Otest.curve 2 3 2)) := by
  have h := horizon_zero_populates_without_extension Otest Ftest "c" "p"
    (some 1) (some 3) 1 3 [some 2, some 4, some 8] 2 3 3 outTest0
    (by decide) (by decide) (by decide) (by decide) (by decide) (by decide)
    (by decide)
  exact ⟨h.1, h.2 2 3 (by decide)⟩

/-- Claim C10: the call does not change any pre-existing column at any
original date: in the returned frame every input column other than the new
one holds, at every input date, exactly its input cell (the embedding is
pure, so the caller-held input frame itself is untouched by construction).
The hypothesis that no input column uses the reserved internal name
"new_col_name" reflects the spec requirement that the new column name must
not collide destructively with reserved internal names. -/
theorem existing_columns_preserved
    (O : FitOracle) (f : Frame) (col new : String) (start stop : Option Nat)
    (horizon : Nat) (s t : Nat) (ys : List Cell) (a b : ℚ) (last : Nat)
    (out : Frame)
    (hWF : f.WF)
    (hres : f.getCol "new_col_name" = none)
    (hs : resolveStart f start = Except.ok s)
    (ht : resolveStop f stop = Except.ok t)
    (hys : (f.filterRows (fun d => decide (d ≤ t) && decide (s ≤ d))).getCol col
      = some ys)
    (hfit : curve_fit O ys = Except.ok (a, b))
    (hlast : f.index.getLast? = some last)
    (hout : get_exponential O f col new start stop horizon = Except.ok out) :
    ∀ nm c, f.getCol nm = some c → nm ≠ new →
      ∀ d ∈ f.index, out.cellAt nm d = f.cellAt nm d := by
  rw [get_exponential_ok O f col new start stop horizon s t ys a b last
    hs ht hys hfit hlast] at hout
  have heq := Except.ok.inj hout
  subst heq
  intro nm c hc hne d hd
  have hnm' : nm ≠ "new_col_name" := by
    intro h
    rw [h, hres] at hc
    exact Option.noConfusion hc
  have hassign : f.assignLiteralNaN.getCol nm = some c := by
    rw [show f.assignLiteralNaN.getCol nm = f.getCol nm from
      Frame.getCol_setCol_ne f _ _ nm hnm', hc]
  have hcolout : (projectCore O f.assignLiteralNaN new s a b last horizon).getCol nm
      = some (c ++ List.replicate (indexExtension last horizon).length none) := by
    rw [projectCore_getCol_ne O f.assignLiteralNaN new s a b last horizon nm hne,
      hassign]
    rfl
  have hlc : c.length = f.index.length := hWF.1 (nm, c) (Frame.getCol_mem f nm c hc)
  rw [Frame.cellAt_of_getCol _ _ d _ hcolout, Frame.cellAt_of_getCol _ _ d _ hc,
    projectCore_index, Frame.assignLiteralNaN_index]
  rw [find_zip_append_left f.index (indexExtension last horizon) c _ d hlc hd]

theorem existing_columns_preserved_witness :
    outTest.cellAt "c" 2 = Ftest.cellAt "c" 2 := by
  have h := existing_columns_preserved Otest Ftest "c" "p" (some 1) (some 3) 2
    1 3 [some 2, some 4, some 8] 2 3 3 outTest
    (by decide) (by decide) (by decide) (by decide) (by decide) (by decide)
    (by decide) (by decide)
  exact h "c" [some 1, some 2, some 4, some 8] (by decide) (by decide) 2 (by decide)

/-- Claim C4 counterexample: on a daily dataset of 29 rows over dates
100..128 the defaulted start is date 101, not 28 calendar days before the
last date (which would be 100): line 59 takes the 28th index entry from the
end, not the date 28 days earlier. -/
theorem default_start_not_28_days_before_last :
    resolveStart F29 none = Except.ok 101 ∧ (101 : Nat) ≠ 128 - 28
      ∧ F29.index.getLast? = some 128 := by
  refine ⟨by decide, by decide, by decide⟩

/-- Claim C4 (amended): with start and stop omitted, the fit window defaults
to start = the 28th index entry from the end (for a daily-cadence dataset,
27 calendar days before the last date, giving a 28-date window) and stop =
the last date of the dataset. -/
theorem default_window_is_last_28_entries
    (f : Frame) (hD : f.Daily) (hn : 28 ≤ f.numRows) (last : Nat)
    (hlast : f.index.getLast? = some last) :
    resolveStart f none = Except.ok (last - 27)
      ∧ resolveStop f none = Except.ok last :=
  default_window f hD hn last hlast

theorem default_window_is_last_28_entries_witness :
    resolveStart F29 none = Except.ok (128 - 27)
      ∧ resolveStop F29 none = Except.ok 128 :=
  default_window_is_last_28_entries F29 ⟨100, 29, rfl⟩ (by decide) 128 (by decide)

/-- Claim C5: the columns of the output are NOT exactly the input columns
plus the caller-named column: line 66 (dataset.assign(new_col_name=np.nan))
also adds a column literally named "new_col_name", so the output carries two
extra columns. -/
theorem literal_placeholder_column_added :
    (get_exponential Otest Ftest "c" "p" (some 1) (some 3) 2).map
      (fun g => g.colNames) = Except.ok ["c", "new_col_name", "p"] := by
  decide

/-- Claim C6 counterexample: a stop date that is absent from the index (here
10, beyond the last date 3) does not make the call fail: line 61 merely uses
stop as an upper filter bound, so the call succeeds. -/
theorem stop_absent_from_index_no_error :
    (get_exponential Otest Ftest "c" "p" (some 0) (some 10) 1).isOk = true := by
  decide

/-- Claim C6 (amended): the call fails with the unknown-column error when the
target column is absent, and with the too-few-points error when the fit
subset selected by the closed window [start, stop] has fewer than 2 rows, in
particular whenever start > stop; a stop date absent from the index is, by
itself, not an error. -/
theorem error_conditions
    (O : FitOracle) (f : Frame) (col new : String) (s t : Nat) (horizon : Nat)
    (hWF : f.WF) :
    (f.getCol col = none →
      get_exponential O f col new (some s) (some t) horizon
        = Except.error ProjError.unknownColumn)
    ∧ ((f.index.filter (fun d => decide (d ≤ t) && decide (s ≤ d))).length < 2 →
        f.getCol col ≠ none →
        get_exponential O f col new (some s) (some t) horizon
          = Except.error ProjError.invalidWindow)
    ∧ (t < s → f.getCol col ≠ none →
        get_exponential O f col new (some s) (some t) horizon
          = Except.error ProjError.invalidWindow) := by
  have main2 : (f.index.filter (fun d => decide (d ≤ t) && decide (s ≤ d))).length < 2 →
      f.getCol col ≠ none →
      get_exponential O f col new (some s) (some t) horizon
        = Except.error ProjError.invalidWindow := by
    intro hshort hsome
    obtain ⟨c, hc⟩ := Option.ne_none_iff_exists'.mp hsome
    have hsub : (f.filterRows (fun d => decide (d ≤ t) && decide (s ≤ d))).getCol col
        = some (((f.index.zip c).filter
            (fun x => (decide (x.1 ≤ t) && decide (s ≤ x.1)))).map Prod.snd) := by
      rw [Frame.getCol_filterRows, hc]
      rfl
    have hlc : c.length = f.index.length := hWF.1 (col, c) (Frame.getCol_mem f col c hc)
    have hyslen : (((f.index.zip c).filter
        (fun x => (decide (x.1 ≤ t) && decide (s ≤ x.1)))).map Prod.snd).length
        = (f.index.filter (fun d => decide (d ≤ t) && decide (s ≤ d))).length :=
      length_zip_filter f.index c (fun d => decide (d ≤ t) && decide (s ≤ d)) hlc
    have hcf : curve_fit O (((f.index.zip c).filter
        (fun x => (decide (x.1 ≤ t) && decide (s ≤ x.1)))).map Prod.snd)
        = Except.error ProjError.invalidWindow := by
      unfold curve_fit
      rw [if_pos (by omega)]
    simp only [get_exponential, resolveStart, resolveStop, hsub, hcf]
  refine ⟨?_, main2, ?_⟩
  · intro hnone
    have hsub : (f.filterRows (fun d => decide (d ≤ t) && decide (s ≤ d))).getCol col
        = none := by
      rw [Frame.getCol_filterRows, hnone]
      rfl
    simp only [get_exponential, resolveStart, resolveStop, hsub]
  · intro hts hsome
    refine main2 ?_ hsome
    have hempty : f.index.filter (fun d => decide (d ≤ t) && decide (s ≤ d)) = [] := by
      rw [List.filter_eq_nil_iff]
      intro x hx
      simp only [Bool.and_eq_true, decide_eq_true_eq, not_and]
      omega
    rw [hempty]
    simp

theorem error_conditions_witness :
    get_exponential Otest Ftest "zz" "p" (some 1) (some 3) 2
        = Except.error ProjError.unknownColumn
      ∧ get_exponential Otest Ftest "c" "p" (some 2) (some 2) 1
        = Except.error ProjError.invalidWindow
      ∧ get_exponential Otest Ftest "c" "p" (some 3) (some 1) 1
        = Except.error ProjError.invalidWindow := by
  refine ⟨(error_conditions Otest Ftest "zz" "p" 1 3 2 (by decide)).1 (by decide),
    (error_conditions Otest Ftest "c" "p" 2 2 1 (by decide)).2.1 (by decide)
      (by decide),
    (error_conditions Otest Ftest "c" "p" 3 1 1 (by decide)).2.2 (by decide)
      (by decide)⟩

/-- Claim C9: the embedded get_exponential is a pure function, so two calls
with identical dataset, column names, window bounds, horizon and fit oracle
return identical results, missing-value positions included. -/
theorem projection_deterministic (O : FitOracle) (f : Frame) (col new : String)
    (start stop : Option Nat) (horizon : Nat) :
    get_exponential O f col new start stop horizon
      = get_exponential O f col new start stop horizon := rfl
